import Mathlib

/-!
Verification of `propositions/semantics.py` (semantic analysis of
propositional-logic constructs) against its natural-language specification.

The formula/inference-rule data types come from collaborator modules
(`propositions/syntax.py`, `propositions/proofs.py`) that are not part of the
analysed source; they are modelled from the specification's data-model section.
The semantic functions themselves are translated line by line from
`semantics.py`.  Python's `assert` failures, `KeyError`/`IndexError` aborts and
a fall-through `return None` are all modelled by `Option.none`; a normal
boolean/valued return is `some`.
-/

/-- Modelled from the spec: the variable-name predicate of the syntax
collaborator — an identifier starting with a lowercase letter, optionally
followed by digits. -/
def is_variable (s : String) : Bool :=
  match s.data with
  | [] => false
  | c :: rest => c.isLower && rest.all Char.isDigit

/-- Modelled from the spec: the immutable formula tree of the syntax
collaborator.  Root labels partition into four kinds: variable, constant
(`"T"`/`"F"`), unary operator (negation `"~"`) and binary operator (one of
`"&"`, `"|"`, `"->"`, `"<->"`: and, or, implies, iff).  The binary constructor
keeps the root label as a string, exactly as `semantics.py` dispatches on it. -/
inductive Formula where
  | var (name : String)
  | const (name : String)
  | neg (first : Formula)
  | binary (root : String) (first second : Formula)
deriving DecidableEq, Repr

/-- Modelled from the spec: the "collect distinct variable names" operation of
the syntax collaborator (Python returns a set; here a duplicate-free list). -/
def Formula.variables : Formula → List String
  | .var name => [name]
  | .const _ => []
  | .neg first => first.variables
  | .binary _ first second => (first.variables ++ second.variables).dedup

/-- A model: Python's `Mapping[str, bool]`, embedded as an association list
(the claims only ever use duplicate-free key sets, where the two coincide). -/
abbrev Model := List (String × Bool)

/-- `is_model` from `semantics.py`: every key is a valid variable name. -/
def is_model (model : Model) : Bool :=
  model.all (fun kv => is_variable kv.1)

/-- `variables` from `semantics.py`: the model's key set (as a list here). -/
def model_variables (model : Model) : List String :=
  model.map Prod.fst

/-- `evaluate` from `semantics.py`, lines 46-88.  A variable node looks its
root up in the model (`KeyError` on a missing key becomes `none`, which is
also where the subset `assert` of the source aborts, since `evaluate` visits
every leaf).  A constant returns `root == 'T'`.  Negation negates the child.
A binary node evaluates both children, then dispatches on the root label;
note that the source's final `else` branch — reached exactly by the iff
operator `"<->"` — returns `left_val != right_val`. -/
def evaluate : Formula → Model → Option Bool
  | .var name, model => model.lookup name
  | .const name, _ => some (name == "T")
  | .neg first, model => (evaluate first model).map (fun b => !b)
  | .binary root first second, model => do
      let left_val ← evaluate first model
      let right_val ← evaluate second model
      if root == "&" then
        some (left_val && right_val)
      else if root == "|" then
        some (left_val || right_val)
      else if root == "->" then
        some (!left_val || right_val)
      else
        some (left_val != right_val)

/-- `all_models` from `semantics.py`, lines 90-118: model `i` assigns to the
variable at position `j` the boolean `bool((i >> (n - j - 1)) & 1)`.  The
source's `assert is_variable(v)` loop is carried as a hypothesis of the
theorems below. -/
def all_models (vars : List String) : List Model :=
  let n := vars.length
  (List.range (2 ^ n)).map (fun i =>
    vars.enum.map (fun jv => (jv.2, decide (((i >>> (n - jv.1 - 1)) &&& 1) ≠ 0))))

/-- `truth_values` from `semantics.py`, lines 120-138: the truth value of the
formula in each model, in order; an aborting evaluation aborts the whole
enumeration (the generator is consumed into a list). -/
def truth_values (formula : Formula) : List Model → Option (List Bool)
  | [] => some []
  | m :: rest => do
      let b ← evaluate formula m
      let bs ← truth_values formula rest
      some (b :: bs)

/-- Loop of `is_tautology` (lines 180-194): return `False` at the first model
where the formula evaluates to false, else `True`. -/
def tautology_loop (formula : Formula) : List Model → Option Bool
  | [] => some true
  | m :: rest => do
      let b ← evaluate formula m
      if !b then some false else tautology_loop formula rest

/-- `is_tautology` from `semantics.py`, lines 180-194. -/
def is_tautology (formula : Formula) : Option Bool :=
  tautology_loop formula (all_models formula.variables)

/-- Loop of `is_contradiction` (lines 196-210): return `False` at the first
model where the formula evaluates to true, else `True`. -/
def contradiction_loop (formula : Formula) : List Model → Option Bool
  | [] => some true
  | m :: rest => do
      let b ← evaluate formula m
      if b then some false else contradiction_loop formula rest

/-- `is_contradiction` from `semantics.py`, lines 196-210. -/
def is_contradiction (formula : Formula) : Option Bool :=
  contradiction_loop formula (all_models formula.variables)

/-- Loop of `is_satisfiable` (lines 212-226): return `True` at the first model
where the formula evaluates to true, else `False`. -/
def satisfiable_loop (formula : Formula) : List Model → Option Bool
  | [] => some false
  | m :: rest => do
      let b ← evaluate formula m
      if b then some true else satisfiable_loop formula rest

/-- `is_satisfiable` from `semantics.py`, lines 212-226. -/
def is_satisfiable (formula : Formula) : Option Bool :=
  satisfiable_loop formula (all_models formula.variables)

/-- `_synthesize_for_model` from `semantics.py`, lines 228-257: conjoin, left
to right over the model's entries, the bare variable where the model assigns
true and its negation where false.  The source asserts a nonempty key set;
the empty case (where the Python fold would return `None`) is `none`. -/
def synthesize_for_model (model : Model) : Option Formula :=
  match model with
  | [] => none
  | (v, b) :: rest =>
      some (rest.foldl
        (fun result vb =>
          Formula.binary "&" result
            (if vb.2 then Formula.var vb.1 else Formula.neg (Formula.var vb.1)))
        (if b then Formula.var v else Formula.neg (Formula.var v)))

/-- The clause-collecting loop of `synthesize` (lines 282-288): walk
`enumerate(all_models(variables))`; for each index, `vals_list[i]` aborts
(`IndexError`) when out of range; where the value is true, add the clause for
that model. -/
def dnf_clauses (values : List Bool) : List (Nat × Model) → Option (List Formula)
  | [] => some []
  | (i, m) :: rest => do
      let b ← values.get? i
      if b then do
        let c ← synthesize_for_model m
        let tail ← dnf_clauses values rest
        some (c :: tail)
      else
        dnf_clauses values rest

/-- `synthesize` from `semantics.py`, lines 259-298: DNF synthesis.  The
`assert len(variables) > 0` is the leading `none` branch; with no clause the
sentinel `(p&~p)` is returned, else the clauses are disjoined left to right. -/
def synthesize (vars : List String) (values : List Bool) : Option Formula :=
  if vars.length = 0 then none
  else do
    let clauses ← dnf_clauses values (all_models vars).enum
    match clauses with
    | [] => some (Formula.binary "&" (Formula.var "p") (Formula.neg (Formula.var "p")))
    | c :: cs => some (cs.foldl (fun result c2 => Formula.binary "|" result c2) c)

/-- `_synthesize_for_all_except_model` from `semantics.py`, lines 300-329:
disjoin, left to right, the negated variable where the model assigns true and
the bare variable where false. -/
def synthesize_for_all_except_model (model : Model) : Option Formula :=
  match model with
  | [] => none
  | (v, b) :: rest =>
      some (rest.foldl
        (fun r vb =>
          Formula.binary "|" r
            (if !vb.2 then Formula.var vb.1 else Formula.neg (Formula.var vb.1)))
        (if !b then Formula.var v else Formula.neg (Formula.var v)))

/-- The clause-collecting loop of `synthesize_cnf` (lines 354-360): add a
disjunctive clause for each model whose value is false. -/
def cnf_clauses (values : List Bool) : List (Nat × Model) → Option (List Formula)
  | [] => some []
  | (i, m) :: rest => do
      let b ← values.get? i
      if !b then do
        let f ← synthesize_for_all_except_model m
        let tail ← cnf_clauses values rest
        some (f :: tail)
      else
        cnf_clauses values rest

/-- `synthesize_cnf` from `semantics.py`, lines 331-370: CNF synthesis, dual
to `synthesize`; the all-true sentinel is `(p|~p)`, clauses conjoined left to
right. -/
def synthesize_cnf (vars : List String) (values : List Bool) : Option Formula :=
  if vars.length = 0 then none
  else do
    let fs ← cnf_clauses values (all_models vars).enum
    match fs with
    | [] => some (Formula.binary "|" (Formula.var "p") (Formula.neg (Formula.var "p")))
    | r :: rest => some (rest.foldl (fun r2 f => Formula.binary "&" r2 f) r)

/-- Modelled from the spec: the inference-rule record of the proofs
collaborator — an ordered sequence of assumption formulas plus one
conclusion formula. -/
structure InferenceRule where
  assumptions : List Formula
  conclusion : Formula
deriving DecidableEq, Repr

/-- `evaluate_inference` from `semantics.py`, lines 372-393: the body of the
source function contains only `assert is_model(model)` and then falls off the
end, returning Python's `None` — it never produces a boolean.  The absent
boolean result is `none`. -/
def evaluate_inference (_rule : InferenceRule) (_model : Model) : Option Bool :=
  none

/-- `is_sound_inference` from `semantics.py`, lines 395-405: the body of the
source function is empty (only a docstring), so it returns Python's `None`;
the absent boolean result is `none`. -/
def is_sound_inference (_rule : InferenceRule) : Option Bool :=
  none

/-! ### The bit function used by `all_models` -/

/-- The bit the enumerator assigns: `bool((i >> k) & 1)`. -/
def bitAt (i k : Nat) : Bool := decide (((i >>> k) &&& 1) ≠ 0)

/-- Recursive characterization of `all_models` (proved below): models of
`v :: V` are the models of `V` preceded by `(v, false)`, then those preceded
by `(v, true)`. -/
def models_rec : List String → List Model
  | [] => [[]]
  | v :: V => (models_rec V).map (fun m => (v, false) :: m)
      ++ (models_rec V).map (fun m => (v, true) :: m)

lemma bitAt_eq_testBit (i k : Nat) : bitAt i k = Nat.testBit i k := by
  rw [Nat.testBit_to_div_mod, bitAt, Nat.and_one_is_mod, Nat.shiftRight_eq_div_pow]
  rcases Nat.mod_two_eq_zero_or_one (i / 2 ^ k) with h | h <;> simp [h]

lemma bitAt_eq_false_of_lt {i n : Nat} (h : i < 2 ^ n) : bitAt i n = false := by
  rw [bitAt_eq_testBit]
  exact Nat.testBit_eq_false_of_lt h

lemma bitAt_two_pow_add_self {i n : Nat} (h : i < 2 ^ n) : bitAt (2 ^ n + i) n = true := by
  rw [bitAt_eq_testBit, Nat.testBit_two_pow_add_eq, ← bitAt_eq_testBit,
    bitAt_eq_false_of_lt h]
  rfl

lemma bitAt_two_pow_add_lt {k n : Nat} (hk : k < n) (i : Nat) :
    bitAt (2 ^ n + i) k = bitAt i k := by
  rw [bitAt_eq_testBit, bitAt_eq_testBit]
  exact Nat.testBit_two_pow_add_gt hk i

lemma all_models_def (V : List String) :
    all_models V = (List.range (2 ^ V.length)).map (fun i =>
      V.enum.map (fun jv => (jv.2, bitAt i (V.length - jv.1 - 1)))) := rfl

/-! ### Structure of the model enumeration -/

lemma enumFrom_map_shift {β : Type} (V : List String) (g : Nat → String → β) :
    ∀ k : Nat, (V.enumFrom (k + 1)).map (fun jv => g jv.1 jv.2)
      = (V.enumFrom k).map (fun jv => g (jv.1 + 1) jv.2) := by
  induction V with
  | nil => intro k; rfl
  | cons v rest ih =>
      intro k
      simp only [List.enumFrom_cons, List.map_cons, List.cons.injEq, true_and]
      exact ih (k + 1)

lemma all_models_cons (v : String) (V : List String) :
    all_models (v :: V)
      = (all_models V).map (fun m => (v, false) :: m)
        ++ (all_models V).map (fun m => (v, true) :: m) := by
  by_cases hV : V = []
  · subst hV
    have h1 : all_models [v] = [[(v, false)], [(v, true)]] := by
      simp only [all_models, List.length_cons, List.length_nil]
      norm_num
      rfl
    have h0 : all_models ([] : List String) = [[]] := by
      simp only [all_models, List.length_nil]
      norm_num
    rw [h1, h0]
    rfl
  · have hn : 0 < V.length := List.length_pos.mpr hV
    rw [all_models_def, all_models_def]
    have h2 : (2 : Nat) ^ (v :: V).length = 2 ^ V.length + 2 ^ V.length := by
      simp only [List.length_cons, Nat.pow_succ]
      omega
    rw [h2, List.range_add, List.map_append, List.map_map, List.map_map, List.map_map]
    congr 1
    · apply List.map_congr_left
      intro i hi
      have hi2 : i < 2 ^ V.length := List.mem_range.mp hi
      simp only [Function.comp, List.enum_cons, List.map_cons, List.length_cons]
      have hhead : bitAt i (V.length + 1 - 0 - 1) = false := by
        have : V.length + 1 - 0 - 1 = V.length := by omega
        rw [this]
        exact bitAt_eq_false_of_lt hi2
      rw [hhead]
      have htail := enumFrom_map_shift V
        (fun j x => (x, bitAt i (V.length + 1 - j - 1))) 0
      refine congrArg (List.cons (v, false)) ?_
      rw [show V.enum = V.enumFrom 0 from rfl, htail]
      have harith : ∀ j : Nat, V.length + 1 - (j + 1) - 1 = V.length - j - 1 :=
        fun j => by omega
      simp only [harith]
    · apply List.map_congr_left
      intro i hi
      have hi2 : i < 2 ^ V.length := List.mem_range.mp hi
      simp only [Function.comp, List.enum_cons, List.map_cons, List.length_cons]
      have hhead : bitAt (2 ^ V.length + i) (V.length + 1 - 0 - 1) = true := by
        have : V.length + 1 - 0 - 1 = V.length := by omega
        rw [this]
        exact bitAt_two_pow_add_self hi2
      rw [hhead]
      have htail := enumFrom_map_shift V
        (fun j x => (x, bitAt (2 ^ V.length + i) (V.length + 1 - j - 1))) 0
      refine congrArg (List.cons (v, true)) ?_
      rw [show V.enum = V.enumFrom 0 from rfl, htail]
      have harith : ∀ j : Nat,
          V.length + 1 - (j + 1) - 1 = V.length - j - 1 := fun j => by omega
      have hbit : ∀ j : Nat,
          bitAt (2 ^ V.length + i) (V.length - j - 1) = bitAt i (V.length - j - 1) :=
        fun j => bitAt_two_pow_add_lt (by omega) i
      simp only [harith, hbit]

lemma all_models_eq_models_rec (V : List String) : all_models V = models_rec V := by
  induction V with
  | nil => rfl
  | cons v rest ih => rw [all_models_cons, models_rec, ih]

lemma length_all_models (V : List String) : (all_models V).length = 2 ^ V.length := by
  simp [all_models]

lemma keys_of_mem_models_rec (V : List String) (m : Model) (hm : m ∈ models_rec V) :
    model_variables m = V := by
  induction V generalizing m with
  | nil =>
      simp only [models_rec, List.mem_singleton] at hm
      subst hm
      rfl
  | cons v rest ih =>
      simp only [models_rec, List.mem_append, List.mem_map] at hm
      rcases hm with ⟨m1, hm1, rfl⟩ | ⟨m1, hm1, rfl⟩ <;>
        · have := ih m1 hm1
          simp only [model_variables, List.map_cons] at this ⊢
          rw [this]

lemma keys_of_mem_all_models (V : List String) (m : Model) (hm : m ∈ all_models V) :
    model_variables m = V :=
  keys_of_mem_models_rec V m (by rwa [← all_models_eq_models_rec])

lemma nodup_models_rec (V : List String) : (models_rec V).Nodup := by
  induction V with
  | nil => simp [models_rec]
  | cons v rest ih =>
      simp only [models_rec]
      have hinj1 : Function.Injective (fun m : Model => (v, false) :: m) := by
        intro a b h
        simpa using h
      have hinj2 : Function.Injective (fun m : Model => (v, true) :: m) := by
        intro a b h
        simpa using h
      refine List.Nodup.append (ih.map hinj1) (ih.map hinj2) ?_
      intro x hx1 hx2
      simp only [List.mem_map] at hx1 hx2
      obtain ⟨m1, _, rfl⟩ := hx1
      obtain ⟨m2, _, h⟩ := hx2
      simp at h

lemma nodup_all_models (V : List String) : (all_models V).Nodup := by
  rw [all_models_eq_models_rec]
  exact nodup_models_rec V

lemma count_cons_map (v : String) (b : Bool) (L : List Model) (x : Model) :
    List.count ((v, b) :: x) (L.map (fun m => (v, b) :: m)) = List.count x L := by
  induction L with
  | nil => rfl
  | cons m L ih =>
      have hcond : (((v, b) :: m) == ((v, b) :: x)) = (m == x) := by
        by_cases h : m = x
        · subst h
          simp
        · rw [beq_eq_false_iff_ne.mpr h, beq_eq_false_iff_ne.mpr (by simp [h])]
      simp only [List.map_cons, List.count_cons, hcond, ih]

lemma count_models_rec (V : List String) (bs : List Bool) (hlen : bs.length = V.length) :
    List.count (V.zip bs) (models_rec V) = 1 := by
  induction V generalizing bs with
  | nil =>
      have hbs : bs = [] := List.length_eq_zero.mp hlen
      subst hbs
      rfl
  | cons v rest ih =>
      cases bs with
      | nil => simp at hlen
      | cons b bs2 =>
          have hlen2 : bs2.length = rest.length := by simpa using hlen
          have hinjf : Function.Injective (fun m : Model => (v, false) :: m) := by
            intro a b h
            simpa using h
          have hinjt : Function.Injective (fun m : Model => (v, true) :: m) := by
            intro a b h
            simpa using h
          simp only [List.zip_cons_cons, models_rec, List.count_append]
          cases b
          · have hz : List.count ((v, false) :: rest.zip bs2)
                ((models_rec rest).map (fun m => (v, true) :: m)) = 0 := by
              rw [List.count_eq_zero]
              intro hmem
              simp only [List.mem_map] at hmem
              obtain ⟨m1, _, h⟩ := hmem
              simp at h
            rw [hz, count_cons_map, ih bs2 hlen2]
          · have hz : List.count ((v, true) :: rest.zip bs2)
                ((models_rec rest).map (fun m => (v, false) :: m)) = 0 := by
              rw [List.count_eq_zero]
              intro hmem
              simp only [List.mem_map] at hmem
              obtain ⟨m1, _, h⟩ := hmem
              simp at h
            rw [hz, count_cons_map, ih bs2 hlen2]

lemma count_all_models (V : List String) (bs : List Bool)
    (hlen : bs.length = V.length) : List.count (V.zip bs) (all_models V) = 1 := by
  rw [all_models_eq_models_rec]
  exact count_models_rec V bs hlen

lemma lookup_enumFrom_map (g : Nat → Bool) :
    ∀ (V : List String) (k j : Nat), V.Nodup → j < V.length →
      ((V.enumFrom k).map (fun jv => (jv.2, g jv.1))).lookup (V.getD j "")
        = some (g (k + j)) := by
  intro V
  induction V with
  | nil =>
      intro k j _ hj
      simp at hj
  | cons v rest ih =>
      intro k j hnd hj
      cases j with
      | zero =>
          simp [List.enumFrom_cons, List.lookup]
      | succ j2 =>
          have hv : v ∉ rest := (List.nodup_cons.mp hnd).1
          have hnd2 : rest.Nodup := (List.nodup_cons.mp hnd).2
          have hj2 : j2 < rest.length := by simpa using hj
          have hmem : rest.getD j2 "" ∈ rest := by
            rw [List.getD_eq_getElem?_getD, List.getElem?_eq_getElem hj2]
            exact List.getElem_mem hj2
          have hne : (rest.getD j2 "" == v) = false :=
            beq_eq_false_iff_ne.mpr (fun h => hv (h ▸ hmem))
          simp only [List.enumFrom_cons, List.map_cons, List.getD_cons_succ,
            List.lookup, hne]
          rw [ih (k + 1) j2 hnd2 hj2]
          have : k + 1 + j2 = k + (j2 + 1) := by omega
          rw [this]

lemma all_models_lookup_bit (V : List String) (hnd : V.Nodup) (i j : Nat)
    (hi : i < 2 ^ V.length) (hj : j < V.length) :
    ((all_models V).getD i []).lookup (V.getD j "")
      = some (Nat.testBit i (V.length - j - 1)) := by
  rw [all_models_def]
  have hi2 : i < (List.range (2 ^ V.length)).length := by simpa using hi
  have h1 : ((List.range (2 ^ V.length)).map (fun i2 =>
        V.enum.map (fun jv => (jv.2, bitAt i2 (V.length - jv.1 - 1))))).getD i []
      = V.enum.map (fun jv => (jv.2, bitAt i (V.length - jv.1 - 1))) := by
    rw [List.getD_eq_getElem?_getD ((List.range (2 ^ V.length)).map _) i,
      List.getElem?_map, List.getElem?_eq_getElem hi2, List.getElem_range]
    simp
  rw [h1]
  have h2 := lookup_enumFrom_map (fun j2 => bitAt i (V.length - j2 - 1)) V 0 j hnd hj
  rw [show V.enum = V.enumFrom 0 from rfl]
  rw [h2, Nat.zero_add]
  simp [bitAt_eq_testBit]

/-! ### Lemmas about `evaluate` -/

lemma lookup_isSome_of_mem (m : Model) (v : String) (hv : v ∈ model_variables m) :
    ∃ b, m.lookup v = some b := by
  induction m with
  | nil => simp [model_variables] at hv
  | cons kv rest ih =>
      obtain ⟨k, c⟩ := kv
      by_cases h : v = k
      · subst h
        exact ⟨c, by simp [List.lookup]⟩
      · have hv2 : v ∈ model_variables rest := by
          simpa [model_variables, h] using hv
        obtain ⟨b, hb⟩ := ih hv2
        exact ⟨b, by simp [List.lookup, beq_eq_false_iff_ne.mpr h, hb]⟩

lemma evaluate_binary_some (root : String) (f1 f2 : Formula) (m : Model) (b1 b2 : Bool)
    (h1 : evaluate f1 m = some b1) (h2 : evaluate f2 m = some b2) :
    evaluate (Formula.binary root f1 f2) m
      = some (if root == "&" then b1 && b2
          else if root == "|" then b1 || b2
          else if root == "->" then !b1 || b2
          else b1 != b2) := by
  by_cases hand : (root == "&") = true
  · simp [evaluate, h1, h2, hand]
  · by_cases hor : (root == "|") = true
    · simp [evaluate, h1, h2, hand, hor]
    · by_cases himp : (root == "->") = true
      · simp [evaluate, h1, h2, hand, hor, himp]
      · simp [evaluate, h1, h2, hand, hor, himp]

lemma evaluate_isSome (f : Formula) (m : Model)
    (h : ∀ v ∈ f.variables, v ∈ model_variables m) :
    ∃ b, evaluate f m = some b := by
  induction f with
  | var name =>
      exact lookup_isSome_of_mem m name (h name (by simp [Formula.variables]))
  | const name => exact ⟨name == "T", rfl⟩
  | neg first ih =>
      obtain ⟨b, hb⟩ := ih (fun v hv => h v hv)
      exact ⟨!b, by simp [evaluate, hb]⟩
  | binary root first second ih1 ih2 =>
      obtain ⟨b1, hb1⟩ := ih1 (fun v hv => h v (by
        simp only [Formula.variables, List.mem_dedup, List.mem_append]
        exact Or.inl hv))
      obtain ⟨b2, hb2⟩ := ih2 (fun v hv => h v (by
        simp only [Formula.variables, List.mem_dedup, List.mem_append]
        exact Or.inr hv))
      exact ⟨_, evaluate_binary_some root first second m b1 b2 hb1 hb2⟩

/-! ### Duality lemmas for the classifier loops -/

lemma variables_neg (f : Formula) : (Formula.neg f).variables = f.variables := rfl

lemma contradiction_loop_neg (f : Formula) (L : List Model) :
    contradiction_loop (Formula.neg f) L = tautology_loop f L := by
  induction L with
  | nil => rfl
  | cons m rest ih =>
      simp only [tautology_loop, contradiction_loop, evaluate]
      cases h : evaluate f m with
      | none => rfl
      | some b => cases b <;> simp [h, ih]

lemma tautology_loop_neg_sat (f : Formula) (L : List Model) :
    tautology_loop (Formula.neg f) L
      = (satisfiable_loop f L).map (fun b => !b) := by
  induction L with
  | nil => rfl
  | cons m rest ih =>
      simp only [tautology_loop, satisfiable_loop, evaluate]
      cases h : evaluate f m with
      | none => rfl
      | some b => cases b <;> simp [h, ih]

/-! ### Boolean fold helpers -/

lemma foldl_and_eq_all {α : Type} (g : α → Bool) (l : List α) :
    ∀ b0 : Bool, l.foldl (fun acc x => acc && g x) b0 = (b0 && l.all g) := by
  induction l with
  | nil =>
      intro b0
      simp
  | cons x l ih =>
      intro b0
      simp only [List.foldl_cons, List.all_cons, ih, Bool.and_assoc]

lemma foldl_or_eq_any {α : Type} (g : α → Bool) (l : List α) :
    ∀ b0 : Bool, l.foldl (fun acc x => acc || g x) b0 = (b0 || l.any g) := by
  induction l with
  | nil =>
      intro b0
      simp
  | cons x l ih =>
      intro b0
      simp only [List.foldl_cons, List.any_cons, ih, Bool.or_assoc]

lemma all_congr_of_mem {α : Type} (l : List α) (f g : α → Bool)
    (h : ∀ x ∈ l, f x = g x) : l.all f = l.all g := by
  induction l with
  | nil => rfl
  | cons x l ih =>
      simp only [List.all_cons, h x (by simp), ih (fun y hy => h y (by simp [hy]))]

/-! ### Evaluation of literals and clauses -/

lemma evaluate_pos_literal (v : String) (b : Bool) (m : Model) (c : Bool)
    (h : m.lookup v = some c) :
    evaluate (if b then Formula.var v else Formula.neg (Formula.var v)) m
      = some (c == b) := by
  cases b <;> cases c <;> simp [evaluate, h]

lemma evaluate_neg_literal (v : String) (b : Bool) (m : Model) (c : Bool)
    (h : m.lookup v = some c) :
    evaluate (if !b then Formula.var v else Formula.neg (Formula.var v)) m
      = some (!(c == b)) := by
  cases b <;> cases c <;> simp [evaluate, h]

lemma clause_and_eval (m : Model) :
    ∀ (entries : Model) (c0 : Formula) (b0 : Bool),
      evaluate c0 m = some b0 →
      (∀ vb ∈ entries, ∃ c, m.lookup vb.1 = some c) →
      evaluate (entries.foldl
          (fun result vb => Formula.binary "&" result
            (if vb.2 then Formula.var vb.1 else Formula.neg (Formula.var vb.1)))
          c0) m
        = some (b0 && entries.all (fun vb => m.lookup vb.1 == some vb.2)) := by
  intro entries
  induction entries with
  | nil =>
      intro c0 b0 h0 _
      simpa using h0
  | cons vb entries ih =>
      intro c0 b0 h0 hcov
      obtain ⟨c, hc⟩ := hcov vb (by simp)
      have hlit := evaluate_pos_literal vb.1 vb.2 m c hc
      have hstep := evaluate_binary_some "&" c0
        (if vb.2 then Formula.var vb.1 else Formula.neg (Formula.var vb.1))
        m b0 (c == vb.2) h0 hlit
      simp only [show (("&" : String) == "&") = true from rfl, if_true] at hstep
      rw [List.foldl_cons, ih _ _ hstep (fun x hx => hcov x (by simp [hx]))]
      simp only [List.all_cons, hc]
      simp [Bool.and_assoc]

lemma clause_or_eval (m : Model) :
    ∀ (entries : Model) (c0 : Formula) (b0 : Bool),
      evaluate c0 m = some b0 →
      (∀ vb ∈ entries, ∃ c, m.lookup vb.1 = some c) →
      evaluate (entries.foldl
          (fun r vb => Formula.binary "|" r
            (if !vb.2 then Formula.var vb.1 else Formula.neg (Formula.var vb.1)))
          c0) m
        = some (b0 || entries.any (fun vb => !(m.lookup vb.1 == some vb.2))) := by
  intro entries
  induction entries with
  | nil =>
      intro c0 b0 h0 _
      simpa using h0
  | cons vb entries ih =>
      intro c0 b0 h0 hcov
      obtain ⟨c, hc⟩ := hcov vb (by simp)
      have hlit := evaluate_neg_literal vb.1 vb.2 m c hc
      have hstep := evaluate_binary_some "|" c0
        (if !vb.2 then Formula.var vb.1 else Formula.neg (Formula.var vb.1))
        m b0 (!(c == vb.2)) h0 hlit
      simp only [show (("|" : String) == "&") = false from rfl,
        show (("|" : String) == "|") = true from rfl, if_false, if_true,
        Bool.false_eq_true] at hstep
      rw [List.foldl_cons, ih _ _ hstep (fun x hx => hcov x (by simp [hx]))]
      simp only [List.any_cons, hc]
      simp [Bool.or_assoc]

lemma some_beq_some (a b : Bool) : ((some a == some b) : Bool) = (a == b) := by
  cases a <;> cases b <;> rfl

lemma synthesize_for_model_eval (mm : Model) (hm : mm ≠ []) (m : Model)
    (hcov : ∀ vb ∈ mm, ∃ c, m.lookup vb.1 = some c) :
    ∃ cl, synthesize_for_model mm = some cl ∧
      evaluate cl m = some (mm.all (fun vb => m.lookup vb.1 == some vb.2)) := by
  cases mm with
  | nil => exact absurd rfl hm
  | cons vb rest =>
      obtain ⟨v, b⟩ := vb
      obtain ⟨c, hc⟩ := hcov (v, b) (by simp)
      have hlit : evaluate (if b then Formula.var v else Formula.neg (Formula.var v)) m
          = some (c == b) := evaluate_pos_literal v b m c hc
      refine ⟨_, rfl, ?_⟩
      rw [clause_and_eval m rest _ _ hlit (fun x hx => hcov x (by simp [hx]))]
      simp only [List.all_cons, hc, some_beq_some]

lemma synthesize_for_all_except_model_eval (mm : Model) (hm : mm ≠ []) (m : Model)
    (hcov : ∀ vb ∈ mm, ∃ c, m.lookup vb.1 = some c) :
    ∃ cl, synthesize_for_all_except_model mm = some cl ∧
      evaluate cl m = some (mm.any (fun vb => !(m.lookup vb.1 == some vb.2))) := by
  cases mm with
  | nil => exact absurd rfl hm
  | cons vb rest =>
      obtain ⟨v, b⟩ := vb
      obtain ⟨c, hc⟩ := hcov (v, b) (by simp)
      have hlit : evaluate (if !b then Formula.var v else Formula.neg (Formula.var v)) m
          = some (!(c == b)) := evaluate_neg_literal v b m c hc
      refine ⟨_, rfl, ?_⟩
      rw [clause_or_eval m rest _ _ hlit (fun x hx => hcov x (by simp [hx]))]
      simp only [List.any_cons, hc, some_beq_some]

/-! ### Evaluation of clause lists -/

lemma evaluate_foldl_or (m : Model) :
    ∀ (ls : List Formula) (c0 : Formula) (b0 : Bool),
      evaluate c0 m = some b0 →
      (∀ l ∈ ls, ∃ b, evaluate l m = some b) →
      evaluate (ls.foldl (fun result l => Formula.binary "|" result l) c0) m
        = some (b0 || ls.any (fun l => (evaluate l m).getD false)) := by
  intro ls
  induction ls with
  | nil =>
      intro c0 b0 h0 _
      simpa using h0
  | cons l ls ih =>
      intro c0 b0 h0 hall
      obtain ⟨b, hb⟩ := hall l (by simp)
      have hstep := evaluate_binary_some "|" c0 l m b0 b h0 hb
      simp only [show (("|" : String) == "&") = false from rfl,
        show (("|" : String) == "|") = true from rfl, if_true,
        Bool.false_eq_true, if_false] at hstep
      rw [List.foldl_cons, ih _ _ hstep (fun x hx => hall x (by simp [hx]))]
      simp only [List.any_cons, hb]
      simp [Bool.or_assoc]

lemma evaluate_foldl_and (m : Model) :
    ∀ (ls : List Formula) (c0 : Formula) (b0 : Bool),
      evaluate c0 m = some b0 →
      (∀ l ∈ ls, ∃ b, evaluate l m = some b) →
      evaluate (ls.foldl (fun r2 l => Formula.binary "&" r2 l) c0) m
        = some (b0 && ls.all (fun l => (evaluate l m).getD false)) := by
  intro ls
  induction ls with
  | nil =>
      intro c0 b0 h0 _
      simpa using h0
  | cons l ls ih =>
      intro c0 b0 h0 hall
      obtain ⟨b, hb⟩ := hall l (by simp)
      have hstep := evaluate_binary_some "&" c0 l m b0 b h0 hb
      simp only [show (("&" : String) == "&") = true from rfl, if_true] at hstep
      rw [List.foldl_cons, ih _ _ hstep (fun x hx => hall x (by simp [hx]))]
      simp only [List.all_cons, hb]
      simp [Bool.and_assoc]

/-! ### The sentinel formulas -/

lemma evaluate_sentinel_and (m : Model) (c : Bool) (hc : m.lookup "p" = some c) :
    evaluate (Formula.binary "&" (Formula.var "p")
      (Formula.neg (Formula.var "p"))) m = some false := by
  cases c <;> simp [evaluate, hc]

lemma evaluate_sentinel_or (m : Model) (c : Bool) (hc : m.lookup "p" = some c) :
    evaluate (Formula.binary "|" (Formula.var "p")
      (Formula.neg (Formula.var "p"))) m = some true := by
  cases c <;> simp [evaluate, hc]

/-! ### Deciding model equality through lookups -/

lemma all_lookup_eq :
    ∀ (mm m : Model), model_variables mm = model_variables m →
      (model_variables mm).Nodup →
      ((mm.all (fun vb => m.lookup vb.1 == some vb.2)) = true ↔ mm = m) := by
  intro mm
  induction mm with
  | nil =>
      intro m hkeys _
      cases m with
      | nil => simp
      | cons vb rest => simp [model_variables] at hkeys
  | cons vb rest ih =>
      intro m hkeys hnd
      obtain ⟨v, b⟩ := vb
      cases m with
      | nil => simp [model_variables] at hkeys
      | cons vb2 rest2 =>
          obtain ⟨v2, b2⟩ := vb2
          simp only [model_variables, List.map_cons] at hkeys
          injection hkeys with hv hkr
          subst hv
          have hnd2 : (model_variables rest).Nodup :=
            ((List.nodup_cons.mp (by simpa [model_variables] using hnd)).2)
          have hvnotin : v ∉ model_variables rest :=
            ((List.nodup_cons.mp (by simpa [model_variables] using hnd)).1)
          have hhead : List.lookup v ((v, b2) :: rest2) = some b2 := by
            simp [List.lookup]
          have htail : ∀ x ∈ rest,
              ((List.lookup x.1 ((v, b2) :: rest2) == some x.2) : Bool)
                = (List.lookup x.1 rest2 == some x.2) := by
            intro x hx
            have hne : x.1 ≠ v := fun h =>
              hvnotin (h ▸ List.mem_map_of_mem Prod.fst hx)
            simp [List.lookup, beq_eq_false_iff_ne.mpr hne]
          simp only [List.all_cons, hhead, Bool.and_eq_true,
            all_congr_of_mem rest _ _ htail]
          rw [ih rest2 hkr hnd2]
          constructor
          · rintro ⟨h1, h2⟩
            have hb : b2 = b := by
              have := eq_of_beq h1
              simpa using this
            rw [hb, h2]
          · intro h
            injection h with h1 h2
            injection h1 with h1a h1b
            subst h1b
            subst h2
            exact ⟨by simp, rfl⟩

/-! ### Uniqueness of the value paired with a model -/

lemma zip_pair_unique :
    ∀ (ms : List Model) (vs : List Bool), ms.Nodup →
      ∀ (m : Model) (b b2 : Bool),
        (m, b) ∈ ms.zip vs → (m, b2) ∈ ms.zip vs → b = b2 := by
  intro ms
  induction ms with
  | nil =>
      intro vs _ m b b2 h1 _
      simp at h1
  | cons m0 ms ih =>
      intro vs hnd m b b2 h1 h2
      cases vs with
      | nil => simp at h1
      | cons v0 vs =>
          have hm0 : m0 ∉ ms := (List.nodup_cons.mp hnd).1
          have hnd2 : ms.Nodup := (List.nodup_cons.mp hnd).2
          simp only [List.zip_cons_cons, List.mem_cons] at h1 h2
          rcases h1 with h1 | h1
          · rcases h2 with h2 | h2
            · injection h1 with h1a h1b
              injection h2 with h2a h2b
              rw [h1b, h2b]
            · injection h1 with h1a h1b
              subst h1a
              exact absurd ((List.of_mem_zip h2).1) hm0
          · rcases h2 with h2 | h2
            · injection h2 with h2a h2b
              subst h2a
              exact absurd ((List.of_mem_zip h1).1) hm0
            · exact ih vs hnd2 m b b2 h1 h2

/-! ### Collecting the clause lists -/

lemma synthesize_for_model_isSome (mm : Model) (hm : mm ≠ []) :
    ∃ cl, synthesize_for_model mm = some cl := by
  cases mm with
  | nil => exact absurd rfl hm
  | cons vb rest =>
      obtain ⟨v, b⟩ := vb
      exact ⟨_, rfl⟩

lemma synthesize_for_all_except_model_isSome (mm : Model) (hm : mm ≠ []) :
    ∃ cl, synthesize_for_all_except_model mm = some cl := by
  cases mm with
  | nil => exact absurd rfl hm
  | cons vb rest =>
      obtain ⟨v, b⟩ := vb
      exact ⟨_, rfl⟩

lemma dnf_clauses_enumFrom (values : List Bool) :
    ∀ (ms : List Model) (k : Nat), k + ms.length ≤ values.length →
      (∀ m ∈ ms, m ≠ []) →
      dnf_clauses values (ms.enumFrom k)
        = some (((ms.zip (values.drop k)).filter (fun p => p.2)).filterMap
            (fun p => synthesize_for_model p.1)) := by
  intro ms
  induction ms with
  | nil =>
      intro k _ _
      simp [dnf_clauses]
  | cons m0 ms ih =>
      intro k hlen hne
      have hk : k < values.length := by
        simp only [List.length_cons] at hlen
        omega
      have hget : values.get? k = some (values.get ⟨k, hk⟩) := List.get?_eq_get hk
      have hdrop : values.drop k = values.get ⟨k, hk⟩ :: values.drop (k + 1) := by
        rw [List.drop_eq_getElem_cons hk]
        rfl
      have htail := ih (k + 1) (by simp only [List.length_cons] at hlen; omega)
        (fun m hm => hne m (by simp [hm]))
      rw [List.enumFrom_cons, hdrop, List.zip_cons_cons]
      cases hv : values.get ⟨k, hk⟩ with
      | false =>
          rw [hv] at hget
          rw [List.get?_eq_getElem?] at hget
          simp [dnf_clauses, hget, htail, List.filter_cons]
      | true =>
          rw [hv] at hget
          rw [List.get?_eq_getElem?] at hget
          obtain ⟨cl, hcl⟩ := synthesize_for_model_isSome m0 (hne m0 (by simp))
          simp [dnf_clauses, hget, hcl, htail, List.filter_cons, List.filterMap_cons]

lemma cnf_clauses_enumFrom (values : List Bool) :
    ∀ (ms : List Model) (k : Nat), k + ms.length ≤ values.length →
      (∀ m ∈ ms, m ≠ []) →
      cnf_clauses values (ms.enumFrom k)
        = some (((ms.zip (values.drop k)).filter (fun p => !p.2)).filterMap
            (fun p => synthesize_for_all_except_model p.1)) := by
  intro ms
  induction ms with
  | nil =>
      intro k _ _
      simp [cnf_clauses]
  | cons m0 ms ih =>
      intro k hlen hne
      have hk : k < values.length := by
        simp only [List.length_cons] at hlen
        omega
      have hget : values.get? k = some (values.get ⟨k, hk⟩) := List.get?_eq_get hk
      have hdrop : values.drop k = values.get ⟨k, hk⟩ :: values.drop (k + 1) := by
        rw [List.drop_eq_getElem_cons hk]
        rfl
      have htail := ih (k + 1) (by simp only [List.length_cons] at hlen; omega)
        (fun m hm => hne m (by simp [hm]))
      rw [List.enumFrom_cons, hdrop, List.zip_cons_cons]
      cases hv : values.get ⟨k, hk⟩ with
      | true =>
          rw [hv] at hget
          rw [List.get?_eq_getElem?] at hget
          simp [cnf_clauses, hget, htail, List.filter_cons]
      | false =>
          rw [hv] at hget
          rw [List.get?_eq_getElem?] at hget
          obtain ⟨cl, hcl⟩ := synthesize_for_all_except_model_isSome m0 (hne m0 (by simp))
          simp [cnf_clauses, hget, hcl, htail, List.filter_cons, List.filterMap_cons]

lemma dnf_clauses_none (values : List Bool) :
    ∀ (pairs : List (Nat × Model)), (∃ p ∈ pairs, values.length ≤ p.1) →
      dnf_clauses values pairs = none := by
  intro pairs
  induction pairs with
  | nil =>
      intro h
      simp at h
  | cons im rest ih =>
      intro h
      obtain ⟨i, m0⟩ := im
      by_cases hi : values.length ≤ i
      · have hn : values[i]? = none := by
          rw [← List.get?_eq_getElem?]
          exact List.get?_eq_none.mpr hi
        simp [dnf_clauses, hn]
      · have hrest : ∃ p ∈ rest, values.length ≤ p.1 := by
          rcases h with ⟨p, hp, hple⟩
          rcases List.mem_cons.mp hp with heq | hp2
          · rw [heq] at hple
            exact absurd hple hi
          · exact ⟨p, hp2, hple⟩
        cases hb : values[i]? with
        | none => simp [dnf_clauses, hb]
        | some b =>
            cases b
            · simp [dnf_clauses, hb, ih hrest]
            · cases hsm : synthesize_for_model m0 with
              | none => simp [dnf_clauses, hb, hsm]
              | some cl => simp [dnf_clauses, hb, hsm, ih hrest]

lemma cnf_clauses_none (values : List Bool) :
    ∀ (pairs : List (Nat × Model)), (∃ p ∈ pairs, values.length ≤ p.1) →
      cnf_clauses values pairs = none := by
  intro pairs
  induction pairs with
  | nil =>
      intro h
      simp at h
  | cons im rest ih =>
      intro h
      obtain ⟨i, m0⟩ := im
      by_cases hi : values.length ≤ i
      · have hn : values[i]? = none := by
          rw [← List.get?_eq_getElem?]
          exact List.get?_eq_none.mpr hi
        simp [cnf_clauses, hn]
      · have hrest : ∃ p ∈ rest, values.length ≤ p.1 := by
          rcases h with ⟨p, hp, hple⟩
          rcases List.mem_cons.mp hp with heq | hp2
          · rw [heq] at hple
            exact absurd hple hi
          · exact ⟨p, hp2, hple⟩
        cases hb : values[i]? with
        | none => simp [cnf_clauses, hb]
        | some b =>
            cases b
            · cases hsm : synthesize_for_all_except_model m0 with
              | none => simp [cnf_clauses, hb, hsm]
              | some cl => simp [cnf_clauses, hb, hsm, ih hrest]
            · simp [cnf_clauses, hb, ih hrest]

lemma mem_all_models_ne_nil (V : List String) (hV : V ≠ []) (m : Model)
    (hm : m ∈ all_models V) : m ≠ [] := by
  have hk := keys_of_mem_all_models V m hm
  intro h
  subst h
  exact hV (by simpa [model_variables] using hk.symm)

/-! ### Unfolding the synthesizers -/

lemma synthesize_of_clauses_nil (V : List String) (values : List Bool) (hV : V ≠ [])
    (hcls : dnf_clauses values (all_models V).enum = some []) :
    synthesize V values
      = some (Formula.binary "&" (Formula.var "p") (Formula.neg (Formula.var "p"))) := by
  have hne : ¬ V.length = 0 := by simpa [List.length_eq_zero] using hV
  unfold synthesize
  rw [if_neg hne, hcls]
  rfl

lemma synthesize_of_clauses_cons (V : List String) (values : List Bool) (hV : V ≠ [])
    (c : Formula) (cs : List Formula)
    (hcls : dnf_clauses values (all_models V).enum = some (c :: cs)) :
    synthesize V values
      = some (cs.foldl (fun result c2 => Formula.binary "|" result c2) c) := by
  have hne : ¬ V.length = 0 := by simpa [List.length_eq_zero] using hV
  unfold synthesize
  rw [if_neg hne, hcls]
  rfl

lemma synthesize_cnf_of_clauses_nil (V : List String) (values : List Bool) (hV : V ≠ [])
    (hcls : cnf_clauses values (all_models V).enum = some []) :
    synthesize_cnf V values
      = some (Formula.binary "|" (Formula.var "p") (Formula.neg (Formula.var "p"))) := by
  have hne : ¬ V.length = 0 := by simpa [List.length_eq_zero] using hV
  unfold synthesize_cnf
  rw [if_neg hne, hcls]
  rfl

lemma synthesize_cnf_of_clauses_cons (V : List String) (values : List Bool) (hV : V ≠ [])
    (r : Formula) (rest : List Formula)
    (hcls : cnf_clauses values (all_models V).enum = some (r :: rest)) :
    synthesize_cnf V values
      = some (rest.foldl (fun r2 f => Formula.binary "&" r2 f) r) := by
  have hne : ¬ V.length = 0 := by simpa [List.length_eq_zero] using hV
  unfold synthesize_cnf
  rw [if_neg hne, hcls]
  rfl

lemma synthesize_none_iff (V : List String) (values : List Bool) :
    synthesize V values = none ↔ (V = [] ∨ values.length < 2 ^ V.length) := by
  constructor
  · intro h
    by_contra hcon
    push_neg at hcon
    obtain ⟨hV, hlen⟩ := hcon
    have hne2 : ∀ m ∈ all_models V, m ≠ [] := mem_all_models_ne_nil V hV
    have hcls := dnf_clauses_enumFrom values (all_models V) 0
      (by rw [length_all_models]; omega) hne2
    rw [← List.enum_eq_enumFrom] at hcls
    cases hc2 : dnf_clauses values (all_models V).enum with
    | none => rw [hc2] at hcls; exact Option.noConfusion hcls
    | some cls =>
        cases cls with
        | nil => rw [synthesize_of_clauses_nil V values hV hc2] at h; exact Option.noConfusion h
        | cons c cs =>
            rw [synthesize_of_clauses_cons V values hV c cs hc2] at h
            exact Option.noConfusion h
  · intro h
    rcases h with hV | hlen
    · subst hV
      rfl
    · by_cases hV : V = []
      · subst hV
        rfl
      · have hpos : 0 < 2 ^ V.length := pow_pos (by norm_num) _
        have hidx : 2 ^ V.length - 1 < ((all_models V).enum).length := by
          rw [List.enum_eq_enumFrom, List.enumFrom_length, length_all_models]
          omega
        have hmlen : 2 ^ V.length - 1 < (all_models V).length := by
          rw [length_all_models]
          omega
        have h1 : ((all_models V).enum)[2 ^ V.length - 1]?
            = some (0 + (2 ^ V.length - 1), (all_models V).get ⟨2 ^ V.length - 1, hmlen⟩) := by
          rw [List.enum_eq_enumFrom, List.getElem?_enumFrom,
            List.getElem?_eq_getElem hmlen]
          rfl
        have hmem : (0 + (2 ^ V.length - 1),
            (all_models V).get ⟨2 ^ V.length - 1, hmlen⟩) ∈ (all_models V).enum :=
          List.getElem?_mem h1
        have hnone := dnf_clauses_none values ((all_models V).enum)
          ⟨_, hmem, by simp only [Nat.zero_add]; omega⟩
        have hne : ¬ V.length = 0 := by simpa [List.length_eq_zero] using hV
        unfold synthesize
        rw [if_neg hne, hnone]
        rfl

lemma synthesize_cnf_none_iff (V : List String) (values : List Bool) :
    synthesize_cnf V values = none ↔ (V = [] ∨ values.length < 2 ^ V.length) := by
  constructor
  · intro h
    by_contra hcon
    push_neg at hcon
    obtain ⟨hV, hlen⟩ := hcon
    have hne2 : ∀ m ∈ all_models V, m ≠ [] := mem_all_models_ne_nil V hV
    have hcls := cnf_clauses_enumFrom values (all_models V) 0
      (by rw [length_all_models]; omega) hne2
    rw [← List.enum_eq_enumFrom] at hcls
    cases hc2 : cnf_clauses values (all_models V).enum with
    | none => rw [hc2] at hcls; exact Option.noConfusion hcls
    | some cls =>
        cases cls with
        | nil =>
            rw [synthesize_cnf_of_clauses_nil V values hV hc2] at h
            exact Option.noConfusion h
        | cons c cs =>
            rw [synthesize_cnf_of_clauses_cons V values hV c cs hc2] at h
            exact Option.noConfusion h
  · intro h
    rcases h with hV | hlen
    · subst hV
      rfl
    · by_cases hV : V = []
      · subst hV
        rfl
      · have hpos : 0 < 2 ^ V.length := pow_pos (by norm_num) _
        have hidx : 2 ^ V.length - 1 < ((all_models V).enum).length := by
          rw [List.enum_eq_enumFrom, List.enumFrom_length, length_all_models]
          omega
        have hmlen : 2 ^ V.length - 1 < (all_models V).length := by
          rw [length_all_models]
          omega
        have h1 : ((all_models V).enum)[2 ^ V.length - 1]?
            = some (0 + (2 ^ V.length - 1), (all_models V).get ⟨2 ^ V.length - 1, hmlen⟩) := by
          rw [List.enum_eq_enumFrom, List.getElem?_enumFrom,
            List.getElem?_eq_getElem hmlen]
          rfl
        have hmem : (0 + (2 ^ V.length - 1),
            (all_models V).get ⟨2 ^ V.length - 1, hmlen⟩) ∈ (all_models V).enum :=
          List.getElem?_mem h1
        have hnone := cnf_clauses_none values ((all_models V).enum)
          ⟨_, hmem, by simp only [Nat.zero_add]; omega⟩
        have hne : ¬ V.length = 0 := by simpa [List.length_eq_zero] using hV
        unfold synthesize_cnf
        rw [if_neg hne, hnone]
        rfl

/-- Claim C1: the claimed combination table for binary formulas says the iff
operator yields true exactly when the two child values are equal.  The
source's `else` branch (line 86, `left_val != right_val`) computes the
opposite: on `(p<->q)` with both variables true it returns `False`, and with
differing values it returns `True` — exclusive or, not iff. -/
theorem c1_iff_branch_computes_xor :
    evaluate (Formula.binary "<->" (Formula.var "p") (Formula.var "q"))
      [("p", true), ("q", true)] = some false
    ∧ evaluate (Formula.binary "<->" (Formula.var "p") (Formula.var "q"))
      [("p", true), ("q", false)] = some true := by decide

/-- Claim C2: `evaluate_inference` is claimed to return true iff some
assumption is false or the conclusion is true; on the source's own docstring
example (rule `[p] ⊢ q`, model `{p: False, q: False}`, documented result
`True`) the function body — which contains only an assert — returns `None`,
never a boolean. -/
theorem c2_evaluate_inference_returns_none :
    evaluate_inference ⟨[Formula.var "p"], Formula.var "q"⟩
      [("p", false), ("q", false)] = none := rfl

/-- Claim C3: `is_sound_inference` is claimed to decide soundness of an
inference rule; the source's function body is empty (a docstring only), so on
the evidently sound rule `⊢ (p|~p)` it returns `None`, never a boolean. -/
theorem c3_is_sound_inference_returns_none :
    is_sound_inference
      ⟨[], Formula.binary "|" (Formula.var "p") (Formula.neg (Formula.var "p"))⟩ = none := rfl

/-- Claim C4, counterexample: with `V = ["q"]` and all-false `values`,
`synthesize` returns the sentinel `(p&~p)` whose variable `p` is not in `V`,
so evaluating it over `all_models ["q"]` aborts (the source's subset assert /
`KeyError`) instead of reproducing `values`. -/
theorem c4_roundtrip_counterexample :
    synthesize ["q"] [false, false] =
        some (Formula.binary "&" (Formula.var "p") (Formula.neg (Formula.var "p")))
    ∧ (synthesize ["q"] [false, false]).bind
        (fun formula => truth_values formula (all_models ["q"])) = none
    ∧ (synthesize ["q"] [false, false]).bind
        (fun formula => truth_values formula (all_models ["q"])) ≠ some [false, false] := by
  decide

/-- Claim C7, counterexample: `synthesize` (and `synthesize_cnf`) called with
`len(values) = 3 ≠ 2 = 2^len(variables)` does not abort: the extra value is
ignored and the formula `~p` is returned. -/
theorem c7_long_values_counterexample :
    synthesize ["p"] [true, false, true] = some (Formula.neg (Formula.var "p"))
    ∧ synthesize_cnf ["p"] [true, false, true] = some (Formula.neg (Formula.var "p")) := by
  decide

/-- Claim C5: for every duplicate-free sequence of valid variable names,
`all_models` yields exactly `2^n` models; model `i` assigns to the variable at
position `j` the bit `(n-1-j)` of `i`; every boolean assignment to the `n`
variables is covered exactly once; and for `n = 0` the enumeration is exactly
the singleton empty model. -/
theorem c5_all_models_enumeration (V : List String) (hnd : V.Nodup)
    (_hvar : ∀ v ∈ V, is_variable v = true) :
    (all_models V).length = 2 ^ V.length
    ∧ (∀ i j : Nat, i < 2 ^ V.length → j < V.length →
        ((all_models V).getD i []).lookup (V.getD j "")
          = some (Nat.testBit i (V.length - 1 - j)))
    ∧ (∀ bs : List Bool, bs.length = V.length →
        List.count (V.zip bs) (all_models V) = 1)
    ∧ all_models ([] : List String) = [[]] := by
  refine ⟨length_all_models V, ?_, ?_, rfl⟩
  · intro i j hi hj
    have h := all_models_lookup_bit V hnd i j hi hj
    rwa [show V.length - j - 1 = V.length - 1 - j from by omega] at h
  · intro bs hlen
    exact count_all_models V bs hlen

/-- Witness for claim C5, at `V = ["p", "q"]` and the assignment
`p ↦ true, q ↦ false`. -/
theorem c5_all_models_enumeration_witness :
    (all_models ["p", "q"]).length = 2 ^ 2
    ∧ List.count (["p", "q"].zip [true, false]) (all_models ["p", "q"]) = 1 := by
  have h := c5_all_models_enumeration ["p", "q"] (by decide) (by decide)
  exact ⟨h.1, h.2.2.1 [true, false] (by decide)⟩

/-- Claim C6: for every formula `F`, `is_tautology F` returns true exactly
when `is_contradiction` of the negation of `F` returns true, and
`is_satisfiable F` returns true exactly when `is_tautology` of the negation
of `F` returns false. -/
theorem c6_classifier_duality (F : Formula) :
    (is_tautology F = some true ↔ is_contradiction (Formula.neg F) = some true)
    ∧ (is_satisfiable F = some true ↔ is_tautology (Formula.neg F) = some false) := by
  constructor
  · unfold is_tautology is_contradiction
    rw [variables_neg, contradiction_loop_neg]
  · unfold is_satisfiable is_tautology
    rw [variables_neg, tautology_loop_neg_sat]
    constructor
    · intro h
      rw [h]
      rfl
    · intro h
      cases hs : satisfiable_loop F (all_models F.variables) with
      | none => rw [hs] at h; simp at h
      | some b =>
          cases b with
          | false => rw [hs] at h; simp at h
          | true => rfl

/-- Claim C9: evaluation depends only on the model's restriction to the
formula's variables: two models whose key sets cover `vars F` and that agree
on every variable of `F` give equal results (and `evaluate`, a pure function,
is trivially deterministic across repeated calls). -/
theorem c9_evaluate_depends_only_on_vars (F : Formula) (M1 M2 : Model)
    (hsub1 : ∀ v ∈ F.variables, v ∈ model_variables M1)
    (hsub2 : ∀ v ∈ F.variables, v ∈ model_variables M2)
    (hagree : ∀ v ∈ F.variables, M1.lookup v = M2.lookup v) :
    evaluate F M1 = evaluate F M2 := by
  induction F with
  | var name => exact hagree name (by simp [Formula.variables])
  | const name => rfl
  | neg first ih =>
      have h := ih (fun v hv => hsub1 v hv) (fun v hv => hsub2 v hv)
        (fun v hv => hagree v hv)
      simp only [evaluate, h]
  | binary root first second ih1 ih2 =>
      have hm1 : ∀ v ∈ first.variables,
          v ∈ (Formula.binary root first second).variables := fun v hv => by
        simp only [Formula.variables, List.mem_dedup, List.mem_append]
        exact Or.inl hv
      have hm2 : ∀ v ∈ second.variables,
          v ∈ (Formula.binary root first second).variables := fun v hv => by
        simp only [Formula.variables, List.mem_dedup, List.mem_append]
        exact Or.inr hv
      have e1 := ih1 (fun v hv => hsub1 v (hm1 v hv)) (fun v hv => hsub2 v (hm1 v hv))
        (fun v hv => hagree v (hm1 v hv))
      have e2 := ih2 (fun v hv => hsub1 v (hm2 v hv)) (fun v hv => hsub2 v (hm2 v hv))
        (fun v hv => hagree v (hm2 v hv))
      simp only [evaluate]
      rw [e1, e2]

/-- Witness for claim C9: `(p&q)` evaluated in `{p: true, q: false, r: true}`
and in `{q: false, p: true}`. -/
theorem c9_evaluate_depends_only_on_vars_witness :
    evaluate (Formula.binary "&" (Formula.var "p") (Formula.var "q"))
        [("p", true), ("q", false), ("r", true)]
      = evaluate (Formula.binary "&" (Formula.var "p") (Formula.var "q"))
        [("q", false), ("p", true)] :=
  c9_evaluate_depends_only_on_vars
    (Formula.binary "&" (Formula.var "p") (Formula.var "q"))
    [("p", true), ("q", false), ("r", true)] [("q", false), ("p", true)]
    (by decide) (by decide) (by decide)

lemma dnf_clauses_all_false (V : List String) (values : List Bool) (hV : V ≠ [])
    (hlen : 2 ^ V.length ≤ values.length) (hf : ∀ b ∈ values, b = false) :
    dnf_clauses values (all_models V).enum = some [] := by
  have hcls := dnf_clauses_enumFrom values (all_models V) 0
    (by rw [length_all_models]; omega) (mem_all_models_ne_nil V hV)
  rw [← List.enum_eq_enumFrom] at hcls
  rw [hcls]
  have hfil : List.filter (fun p => p.2) ((all_models V).zip (values.drop 0)) = [] := by
    rw [List.filter_eq_nil_iff]
    intro p hp
    have hb : p.2 ∈ values := by
      have h2 := (List.of_mem_zip hp).2
      simpa using h2
    simp [hf p.2 hb]
  rw [hfil]
  rfl

lemma cnf_clauses_all_true (V : List String) (values : List Bool) (hV : V ≠ [])
    (hlen : 2 ^ V.length ≤ values.length) (ht : ∀ b ∈ values, b = true) :
    cnf_clauses values (all_models V).enum = some [] := by
  have hcls := cnf_clauses_enumFrom values (all_models V) 0
    (by rw [length_all_models]; omega) (mem_all_models_ne_nil V hV)
  rw [← List.enum_eq_enumFrom] at hcls
  rw [hcls]
  have hfil : List.filter (fun p => !p.2) ((all_models V).zip (values.drop 0)) = [] := by
    rw [List.filter_eq_nil_iff]
    intro p hp
    have hb : p.2 ∈ values := by
      have h2 := (List.of_mem_zip hp).2
      simpa using h2
    simp [ht p.2 hb]
  rw [hfil]
  rfl

/-- Claim C7 (amended): calling either synthesizer with an empty variable list,
or with `len(values) < 2^n`, aborts (assert failure resp. `IndexError`); but a
`values` longer than `2^n` does NOT abort — the extra entries are ignored and a
formula is returned.  Abort happens exactly for empty `V` or too-short
`values`. -/
theorem c7_synthesize_precondition_amended (V : List String) (values : List Bool)
    (_hvar : ∀ v ∈ V, is_variable v = true) :
    (synthesize V values = none ↔ (V = [] ∨ values.length < 2 ^ V.length))
    ∧ (synthesize_cnf V values = none ↔ (V = [] ∨ values.length < 2 ^ V.length)) :=
  ⟨synthesize_none_iff V values, synthesize_cnf_none_iff V values⟩

/-- Witness for claim C7 (amended), at `V = ["p"]` and the too-short
`values = [false]`. -/
theorem c7_synthesize_precondition_amended_witness :
    (synthesize ["p"] [false] = none
      ↔ ((["p"] : List String) = [] ∨ [false].length < 2 ^ (["p"] : List String).length))
    ∧ (synthesize_cnf ["p"] [false] = none
      ↔ ((["p"] : List String) = [] ∨ [false].length < 2 ^ (["p"] : List String).length)) :=
  c7_synthesize_precondition_amended ["p"] [false] (by decide)

/-- Claim C8: with all-false `values`, `synthesize` returns the sentinel
`(p&~p)`, which evaluates to false under every model covering its variable
`p`; dually, with all-true `values`, `synthesize_cnf` returns `(p|~p)`, which
evaluates to true under every model covering `p`. -/
theorem c8_sentinel_evaluation (V : List String) (values : List Bool)
    (hV : V ≠ []) (_hvar : ∀ v ∈ V, is_variable v = true)
    (hlen : 2 ^ V.length ≤ values.length) :
    ((∀ b ∈ values, b = false) →
      ∃ F, synthesize V values = some F
        ∧ ∀ (m : Model), "p" ∈ model_variables m → evaluate F m = some false)
    ∧ ((∀ b ∈ values, b = true) →
      ∃ G, synthesize_cnf V values = some G
        ∧ ∀ (m : Model), "p" ∈ model_variables m → evaluate G m = some true) := by
  constructor
  · intro hf
    refine ⟨_, synthesize_of_clauses_nil V values hV
      (dnf_clauses_all_false V values hV hlen hf), ?_⟩
    intro m hm
    obtain ⟨c, hc⟩ := lookup_isSome_of_mem m "p" hm
    exact evaluate_sentinel_and m c hc
  · intro ht
    refine ⟨_, synthesize_cnf_of_clauses_nil V values hV
      (cnf_clauses_all_true V values hV hlen ht), ?_⟩
    intro m hm
    obtain ⟨c, hc⟩ := lookup_isSome_of_mem m "p" hm
    exact evaluate_sentinel_or m c hc

/-- Witness for claim C8, at `V = ["q"]` with all-false values. -/
theorem c8_sentinel_evaluation_witness :
    ∃ F, synthesize ["q"] [false, false] = some F
      ∧ ∀ (m : Model), "p" ∈ model_variables m → evaluate F m = some false :=
  (c8_sentinel_evaluation ["q"] [false, false] (by decide) (by decide)
    (by decide)).1 (by decide)

/-- Claim C10: in the all-false edge case `synthesize` returns exactly
`(p&~p)` over the fixed variable `p` (and `synthesize_cnf` returns exactly
`(p|~p)` in the all-true case), even when `p` is not among the given variable
names, and the returned formula's variable set is `{p}`. -/
theorem c10_sentinel_identity (V : List String) (values : List Bool)
    (hV : V ≠ []) (_hvar : ∀ v ∈ V, is_variable v = true)
    (hlen : 2 ^ V.length ≤ values.length) :
    ((∀ b ∈ values, b = false) →
      synthesize V values
          = some (Formula.binary "&" (Formula.var "p") (Formula.neg (Formula.var "p")))
        ∧ (Formula.binary "&" (Formula.var "p")
            (Formula.neg (Formula.var "p"))).variables = ["p"])
    ∧ ((∀ b ∈ values, b = true) →
      synthesize_cnf V values
          = some (Formula.binary "|" (Formula.var "p") (Formula.neg (Formula.var "p")))
        ∧ (Formula.binary "|" (Formula.var "p")
            (Formula.neg (Formula.var "p"))).variables = ["p"]) := by
  constructor
  · intro hf
    exact ⟨synthesize_of_clauses_nil V values hV
      (dnf_clauses_all_false V values hV hlen hf), by decide⟩
  · intro ht
    exact ⟨synthesize_cnf_of_clauses_nil V values hV
      (cnf_clauses_all_true V values hV hlen ht), by decide⟩

/-- Witness for claim C10, at `V = ["q"]` (which does not contain `p`). -/
theorem c10_sentinel_identity_witness :
    (synthesize ["q"] [false, false]
        = some (Formula.binary "&" (Formula.var "p") (Formula.neg (Formula.var "p"))))
    ∧ (synthesize_cnf ["q"] [true, true]
        = some (Formula.binary "|" (Formula.var "p") (Formula.neg (Formula.var "p")))) :=
  ⟨((c10_sentinel_identity ["q"] [false, false] (by decide) (by decide)
      (by decide)).1 (by decide)).1,
   ((c10_sentinel_identity ["q"] [true, true] (by decide) (by decide)
      (by decide)).2 (by decide)).1⟩

lemma any_not_eq_not_all {α : Type} (l : List α) (f : α → Bool) :
    l.any (fun x => !(f x)) = !(l.all f) := by
  induction l with
  | nil => rfl
  | cons x l ih => simp [ih]

lemma truth_values_of_pointwise (F : Formula) :
    ∀ (ms : List Model) (vs : List Bool), ms.length = vs.length →
      (∀ p ∈ ms.zip vs, evaluate F p.1 = some p.2) →
      truth_values F ms = some vs := by
  intro ms
  induction ms with
  | nil =>
      intro vs hlen _
      cases vs with
      | nil => rfl
      | cons v vs2 => simp at hlen
  | cons m ms ih =>
      intro vs hlen hp
      cases vs with
      | nil => simp at hlen
      | cons v vs2 =>
          have h1 : evaluate F m = some v := hp (m, v) (by simp)
          have h2 := ih vs2 (by simpa using hlen) (fun p hp2 => hp p (by simp [hp2]))
          simp [truth_values, h1, h2]

lemma clause_value_eq (V : List String) (hnd : V.Nodup) (mm m2 : Model)
    (hk1 : model_variables mm = V) (hk2 : model_variables m2 = V) (hmm : mm ≠ []) :
    ∃ cl, synthesize_for_model mm = some cl ∧
      evaluate cl m2 = some (decide (mm = m2)) := by
  have hcov : ∀ vb ∈ mm, ∃ c, m2.lookup vb.1 = some c := fun vb hvb =>
    lookup_isSome_of_mem m2 vb.1
      (by rw [show model_variables m2 = model_variables mm from hk2.trans hk1.symm]
          exact List.mem_map_of_mem Prod.fst hvb)
  obtain ⟨cl, hcl, heval⟩ := synthesize_for_model_eval mm hmm m2 hcov
  refine ⟨cl, hcl, ?_⟩
  rw [heval]
  have hiff := all_lookup_eq mm m2 (hk1.trans hk2.symm) (by rw [hk1]; exact hnd)
  congr 1
  cases hall : mm.all (fun vb => m2.lookup vb.1 == some vb.2) with
  | true =>
      rw [hall] at hiff
      simp [hiff.mp rfl]
  | false =>
      have hne : mm ≠ m2 := fun h => by
        rw [hiff.mpr h] at hall
        exact Bool.noConfusion hall
      simp [hne]

lemma clause_value_ne (V : List String) (hnd : V.Nodup) (mm m2 : Model)
    (hk1 : model_variables mm = V) (hk2 : model_variables m2 = V) (hmm : mm ≠ []) :
    ∃ cl, synthesize_for_all_except_model mm = some cl ∧
      evaluate cl m2 = some (decide (mm ≠ m2)) := by
  have hcov : ∀ vb ∈ mm, ∃ c, m2.lookup vb.1 = some c := fun vb hvb =>
    lookup_isSome_of_mem m2 vb.1
      (by rw [show model_variables m2 = model_variables mm from hk2.trans hk1.symm]
          exact List.mem_map_of_mem Prod.fst hvb)
  obtain ⟨cl, hcl, heval⟩ := synthesize_for_all_except_model_eval mm hmm m2 hcov
  refine ⟨cl, hcl, ?_⟩
  rw [heval]
  rw [any_not_eq_not_all]
  have hiff := all_lookup_eq mm m2 (hk1.trans hk2.symm) (by rw [hk1]; exact hnd)
  congr 1
  cases hall : mm.all (fun vb => m2.lookup vb.1 == some vb.2) with
  | true =>
      rw [hall] at hiff
      simp [hiff.mp rfl]
  | false =>
      have hne : mm ≠ m2 := fun h => by
        rw [hiff.mpr h] at hall
        exact Bool.noConfusion hall
      simp [hne]

lemma dnf_roundtrip (V : List String) (values : List Bool) (hV : V ≠ [])
    (hnd : V.Nodup) (hlen : values.length = 2 ^ V.length)
    (hyp : true ∈ values ∨ "p" ∈ V) :
    (synthesize V values).bind (fun F => truth_values F (all_models V))
      = some values := by
  have hmlen : (all_models V).length = values.length := by
    rw [length_all_models, hlen]
  have hkeys : ∀ m ∈ all_models V, model_variables m = V := keys_of_mem_all_models V
  have hnn : ∀ m ∈ all_models V, m ≠ [] := mem_all_models_ne_nil V hV
  have hndm : (all_models V).Nodup := nodup_all_models V
  have hcls0 := dnf_clauses_enumFrom values (all_models V) 0
    (by rw [length_all_models]; omega) hnn
  rw [← List.enum_eq_enumFrom, List.drop_zero] at hcls0
  set S := ((all_models V).zip values).filter (fun p => p.2) with hS
  have hSmem : ∀ p ∈ S, p.1 ∈ all_models V ∧ p.2 = true := by
    intro p hp
    rw [hS, List.mem_filter] at hp
    exact ⟨(List.of_mem_zip hp.1).1, by simpa using hp.2⟩
  have hSzip : ∀ p ∈ S, p ∈ (all_models V).zip values := by
    intro p hp
    rw [hS, List.mem_filter] at hp
    exact hp.1
  cases hSc : S.filterMap (fun p => synthesize_for_model p.1) with
  | nil =>
      have hSnil : S = [] := by
        cases hq : S with
        | nil => rfl
        | cons q S2 =>
            obtain ⟨hq1, _⟩ := hSmem q (by rw [hq]; simp)
            obtain ⟨cl, hcl⟩ := synthesize_for_model_isSome q.1 (hnn q.1 hq1)
            rw [hq, List.filterMap_cons, hcl] at hSc
            exact List.noConfusion hSc
      have hfall : ∀ p ∈ (all_models V).zip values, p.2 = false := by
        intro p hp
        cases hp2 : p.2 with
        | false => rfl
        | true =>
            have hmem : p ∈ S := by
              rw [hS, List.mem_filter]
              exact ⟨hp, by simp [hp2]⟩
            rw [hSnil] at hmem
            exact absurd hmem (List.not_mem_nil p)
      have hpV : "p" ∈ V := by
        rcases hyp with htrue | hpV
        · exfalso
          obtain ⟨k, hk, hval⟩ := List.mem_iff_getElem.mp htrue
          have hk2 : k < (all_models V).length := by omega
          have hzmem : ((all_models V).get ⟨k, hk2⟩, true)
              ∈ (all_models V).zip values := by
            apply List.getElem?_mem
            rw [List.getElem?_zip_eq_some]
            constructor
            · rw [List.getElem?_eq_getElem hk2]
              rfl
            · rw [List.getElem?_eq_getElem hk, hval]
          have hcontra := hfall _ hzmem
          exact Bool.noConfusion hcontra
        · exact hpV
      have hcls : dnf_clauses values (all_models V).enum = some [] := by
        rw [hcls0, hSc]
      rw [synthesize_of_clauses_nil V values hV hcls, Option.some_bind]
      apply truth_values_of_pointwise _ _ _ hmlen
      intro p hp
      have hm := (List.of_mem_zip hp).1
      obtain ⟨c, hc⟩ := lookup_isSome_of_mem p.1 "p" (by
        rw [hkeys p.1 hm]
        exact hpV)
      rw [evaluate_sentinel_and p.1 c hc, hfall p hp]
  | cons c cs =>
      have hcls : dnf_clauses values (all_models V).enum = some (c :: cs) := by
        rw [hcls0, hSc]
      rw [synthesize_of_clauses_cons V values hV c cs hcls, Option.some_bind]
      apply truth_values_of_pointwise _ _ _ hmlen
      intro p hp
      obtain ⟨m2, val⟩ := p
      have hm2 : m2 ∈ all_models V := (List.of_mem_zip hp).1
      have hk2 : model_variables m2 = V := hkeys m2 hm2
      have hclause : ∀ cl ∈ c :: cs, ∃ q, q ∈ S ∧
          synthesize_for_model q.1 = some cl
          ∧ evaluate cl m2 = some (decide (q.1 = m2)) := by
        intro cl hcl
        rw [← hSc] at hcl
        obtain ⟨q, hq, hqcl⟩ := List.mem_filterMap.mp hcl
        obtain ⟨hq1, _⟩ := hSmem q hq
        obtain ⟨cl2, hcl2, heval⟩ :=
          clause_value_eq V hnd q.1 m2 (hkeys q.1 hq1) hk2 (hnn q.1 hq1)
        rw [hqcl] at hcl2
        injection hcl2 with hcleq
        rw [← hcleq] at heval
        exact ⟨q, hq, hqcl, heval⟩
      have hsome : ∀ cl ∈ c :: cs, ∃ b, evaluate cl m2 = some b := by
        intro cl hcl
        obtain ⟨q, _, _, he⟩ := hclause cl hcl
        exact ⟨_, he⟩
      obtain ⟨bc, hbc⟩ := hsome c (by simp)
      rw [evaluate_foldl_or m2 cs c bc hbc (fun l hl => hsome l (by simp [hl]))]
      have hany : (bc || cs.any (fun l => (evaluate l m2).getD false))
          = ((c :: cs).any (fun l => (evaluate l m2).getD false)) := by
        simp [List.any_cons, hbc]
      rw [hany]
      congr 1
      cases val with
      | true =>
          have hq : (m2, true) ∈ S := by
            rw [hS, List.mem_filter]
            exact ⟨hp, by simp⟩
          obtain ⟨clm, hclm, heval⟩ :=
            clause_value_eq V hnd m2 m2 hk2 hk2 (hnn m2 hm2)
          have hclmem : clm ∈ c :: cs := by
            rw [← hSc]
            exact List.mem_filterMap.mpr ⟨(m2, true), hq, hclm⟩
          rw [List.any_eq_true]
          exact ⟨clm, hclmem, by rw [heval]; simp⟩
      | false =>
          rw [List.any_eq_false]
          intro cl hcl
          obtain ⟨q, hqS, _, heval⟩ := hclause cl hcl
          rw [heval]
          simp only [Option.getD_some]
          by_contra hd
          have hq1 : q.1 = m2 := by
            simpa using hd
          have hq2 : q.2 = true := (hSmem q hqS).2
          have hzq : (m2, true) ∈ (all_models V).zip values := by
            have := hSzip q hqS
            rw [show q = (m2, true) from Prod.ext hq1 hq2] at this
            exact this
          exact Bool.noConfusion (zip_pair_unique (all_models V) values hndm m2 true false hzq hp)

lemma cnf_roundtrip (V : List String) (values : List Bool) (hV : V ≠ [])
    (hnd : V.Nodup) (hlen : values.length = 2 ^ V.length)
    (hyp : false ∈ values ∨ "p" ∈ V) :
    (synthesize_cnf V values).bind (fun F => truth_values F (all_models V))
      = some values := by
  have hmlen : (all_models V).length = values.length := by
    rw [length_all_models, hlen]
  have hkeys : ∀ m ∈ all_models V, model_variables m = V := keys_of_mem_all_models V
  have hnn : ∀ m ∈ all_models V, m ≠ [] := mem_all_models_ne_nil V hV
  have hndm : (all_models V).Nodup := nodup_all_models V
  have hcls0 := cnf_clauses_enumFrom values (all_models V) 0
    (by rw [length_all_models]; omega) hnn
  rw [← List.enum_eq_enumFrom, List.drop_zero] at hcls0
  set S := ((all_models V).zip values).filter (fun p => !p.2) with hS
  have hSmem : ∀ p ∈ S, p.1 ∈ all_models V ∧ p.2 = false := by
    intro p hp
    rw [hS, List.mem_filter] at hp
    exact ⟨(List.of_mem_zip hp.1).1, by simpa using hp.2⟩
  have hSzip : ∀ p ∈ S, p ∈ (all_models V).zip values := by
    intro p hp
    rw [hS, List.mem_filter] at hp
    exact hp.1
  cases hSc : S.filterMap (fun p => synthesize_for_all_except_model p.1) with
  | nil =>
      have hSnil : S = [] := by
        cases hq : S with
        | nil => rfl
        | cons q S2 =>
            obtain ⟨hq1, _⟩ := hSmem q (by rw [hq]; simp)
            obtain ⟨cl, hcl⟩ := synthesize_for_all_except_model_isSome q.1 (hnn q.1 hq1)
            rw [hq, List.filterMap_cons, hcl] at hSc
            exact List.noConfusion hSc
      have hfall : ∀ p ∈ (all_models V).zip values, p.2 = true := by
        intro p hp
        cases hp2 : p.2 with
        | true => rfl
        | false =>
            have hmem : p ∈ S := by
              rw [hS, List.mem_filter]
              exact ⟨hp, by simp [hp2]⟩
            rw [hSnil] at hmem
            exact absurd hmem (List.not_mem_nil p)
      have hpV : "p" ∈ V := by
        rcases hyp with hfalse | hpV
        · exfalso
          obtain ⟨k, hk, hval⟩ := List.mem_iff_getElem.mp hfalse
          have hk2 : k < (all_models V).length := by omega
          have hzmem : ((all_models V).get ⟨k, hk2⟩, false)
              ∈ (all_models V).zip values := by
            apply List.getElem?_mem
            rw [List.getElem?_zip_eq_some]
            constructor
            · rw [List.getElem?_eq_getElem hk2]
              rfl
            · rw [List.getElem?_eq_getElem hk, hval]
          have hcontra := hfall _ hzmem
          exact Bool.noConfusion hcontra
        · exact hpV
      have hcls : cnf_clauses values (all_models V).enum = some [] := by
        rw [hcls0, hSc]
      rw [synthesize_cnf_of_clauses_nil V values hV hcls, Option.some_bind]
      apply truth_values_of_pointwise _ _ _ hmlen
      intro p hp
      have hm := (List.of_mem_zip hp).1
      obtain ⟨c, hc⟩ := lookup_isSome_of_mem p.1 "p" (by
        rw [hkeys p.1 hm]
        exact hpV)
      rw [evaluate_sentinel_or p.1 c hc, hfall p hp]
  | cons c cs =>
      have hcls : cnf_clauses values (all_models V).enum = some (c :: cs) := by
        rw [hcls0, hSc]
      rw [synthesize_cnf_of_clauses_cons V values hV c cs hcls, Option.some_bind]
      apply truth_values_of_pointwise _ _ _ hmlen
      intro p hp
      obtain ⟨m2, val⟩ := p
      have hm2 : m2 ∈ all_models V := (List.of_mem_zip hp).1
      have hk2 : model_variables m2 = V := hkeys m2 hm2
      have hclause : ∀ cl ∈ c :: cs, ∃ q, q ∈ S ∧
          synthesize_for_all_except_model q.1 = some cl
          ∧ evaluate cl m2 = some (decide (q.1 ≠ m2)) := by
        intro cl hcl
        rw [← hSc] at hcl
        obtain ⟨q, hq, hqcl⟩ := List.mem_filterMap.mp hcl
        obtain ⟨hq1, _⟩ := hSmem q hq
        obtain ⟨cl2, hcl2, heval⟩ :=
          clause_value_ne V hnd q.1 m2 (hkeys q.1 hq1) hk2 (hnn q.1 hq1)
        rw [hqcl] at hcl2
        injection hcl2 with hcleq
        rw [← hcleq] at heval
        exact ⟨q, hq, hqcl, heval⟩
      have hsome : ∀ cl ∈ c :: cs, ∃ b, evaluate cl m2 = some b := by
        intro cl hcl
        obtain ⟨q, _, _, he⟩ := hclause cl hcl
        exact ⟨_, he⟩
      obtain ⟨bc, hbc⟩ := hsome c (by simp)
      rw [evaluate_foldl_and m2 cs c bc hbc (fun l hl => hsome l (by simp [hl]))]
      have hall : (bc && cs.all (fun l => (evaluate l m2).getD false))
          = ((c :: cs).all (fun l => (evaluate l m2).getD false)) := by
        simp [List.all_cons, hbc]
      rw [hall]
      congr 1
      cases val with
      | false =>
          have hq : (m2, false) ∈ S := by
            rw [hS, List.mem_filter]
            exact ⟨hp, by simp⟩
          obtain ⟨clm, hclm, heval⟩ :=
            clause_value_ne V hnd m2 m2 hk2 hk2 (hnn m2 hm2)
          have hclmem : clm ∈ c :: cs := by
            rw [← hSc]
            exact List.mem_filterMap.mpr ⟨(m2, false), hq, hclm⟩
          rw [List.all_eq_false]
          exact ⟨clm, hclmem, by rw [heval]; simp⟩
      | true =>
          rw [List.all_eq_true]
          intro cl hcl
          obtain ⟨q, hqS, _, heval⟩ := hclause cl hcl
          rw [heval]
          simp only [Option.getD_some, decide_eq_true_eq]
          intro hq1
          have hq2 : q.2 = false := (hSmem q hqS).2
          have hzq : (m2, false) ∈ (all_models V).zip values := by
            have hzz := hSzip q hqS
            rw [show q = (m2, false) from Prod.ext hq1 hq2] at hzz
            exact hzz
          exact Bool.noConfusion (zip_pair_unique (all_models V) values hndm m2 false true hzq hp)

/-- Claim C4 (amended): for every nonempty duplicate-free list of valid
variable names and every `values` of length `2^n`, the truth values of
`synthesize(V, values)` over `all_models(V)` reproduce `values` exactly,
provided some value is true or `p ∈ V`; dually for `synthesize_cnf`,
provided some value is false or `p ∈ V`.  (In the excluded edge cases the
sentinel over the fixed variable `p` falls outside `V` and evaluation aborts;
see the counterexample.) -/
theorem c4_synthesize_roundtrip_amended (V : List String) (values : List Bool)
    (hV : V ≠ []) (hnd : V.Nodup) (_hvar : ∀ v ∈ V, is_variable v = true)
    (hlen : values.length = 2 ^ V.length) :
    ((true ∈ values ∨ "p" ∈ V) →
      (synthesize V values).bind (fun F => truth_values F (all_models V))
        = some values)
    ∧ ((false ∈ values ∨ "p" ∈ V) →
      (synthesize_cnf V values).bind (fun F => truth_values F (all_models V))
        = some values) :=
  ⟨fun hyp => dnf_roundtrip V values hV hnd hlen hyp,
   fun hyp => cnf_roundtrip V values hV hnd hlen hyp⟩

/-- Witness for claim C4, at `V = ["p", "q"]` and
`values = [true, true, true, false]` (the spec's own concrete scenario). -/
theorem c4_synthesize_roundtrip_amended_witness :
    (synthesize ["p", "q"] [true, true, true, false]).bind
        (fun F => truth_values F (all_models ["p", "q"]))
      = some [true, true, true, false]
    ∧ (synthesize_cnf ["p", "q"] [true, true, true, false]).bind
        (fun F => truth_values F (all_models ["p", "q"]))
      = some [true, true, true, false] :=
  ⟨(c4_synthesize_roundtrip_amended ["p", "q"] [true, true, true, false]
      (by decide) (by decide) (by decide) (by decide)).1 (by decide),
   (c4_synthesize_roundtrip_amended ["p", "q"] [true, true, true, false]
      (by decide) (by decide) (by decide) (by decide)).2 (by decide)⟩
